import Mathlib

/-!
Verification of the CodeRefine core (`app.py`): the structured-response
extractor, the credential store, the history store, and the dashboard
orchestration around `analyze_code_with_ai`.

Modelling conventions:
* Python `str` is `List Char` (`Str` below); Python substring containment
  (`in`) is `List.IsInfix` (`<:+:`); `str.strip()` is `strip`;
  `s.split('\n')` is `splitLines`.
* The external Groq LLM call is an opaque collaborator: its outcome (a
  reply text, or an exception caught by the `except` clause) is an
  explicit input `LLMOutcome`, and the presence of `GROQ_API_KEY` is an
  explicit `Bool` input.
* The two JSON files are dictionaries embedded as association lists with
  Python-dict update semantics (`dictGet` / `dictSet`); `datetime.now()`
  is an explicit `now : Str` input.
* `hashlib.sha256(...).hexdigest()` is an external library call, passed
  in as a function parameter `hashF : Str → Str` (the claims under
  verification depend only on hash-value comparison, not on SHA-256
  internals).
-/

namespace CodeRefine

/-- Python `str`, embedded as a list of characters. -/
abbrev Str := List Char

/-- The whitespace characters removed by Python `str.strip()`
(space, tab, newline, carriage return, vertical tab, form feed). -/
def isSpace (c : Char) : Bool :=
  c == ' ' || c == '\t' || c == '\n' || c == '\r' ||
    c == Char.ofNat 11 || c == Char.ofNat 12

/-- Remove leading whitespace (the left half of `str.strip()`). -/
def trimLeft (l : Str) : Str := l.dropWhile isSpace

/-- Remove trailing whitespace (the right half of `str.strip()`). -/
def trimRight (l : Str) : Str := (l.reverse.dropWhile isSpace).reverse

/-- Python `str.strip()`: remove leading and trailing whitespace. -/
def strip (l : Str) : Str := trimRight (trimLeft l)

/-- Python `s.split('\n')`: split at every newline, keeping empty pieces;
the result always has one more piece than there are newlines. -/
def splitLines : Str → List Str
  | [] => [[]]
  | c :: cs =>
    if c = '\n' then [] :: splitLines cs
    else
      match splitLines cs with
      | [] => [[c]]
      | l :: ls => (c :: l) :: ls

/-- The first line of a text: everything before the first newline. -/
def firstLine (l : Str) : Str := l.takeWhile (fun c => !(c == '\n'))

/-- The four section slots of the extractor
(`code_review`, `optimization`, `security`, `refactored_code`). -/
inductive SKey : Type where
  | code_review
  | optimization
  | security
  | refactored_code
deriving DecidableEq

/-- The literal header string associated with each section
(the keys of the `sections` dict in `analyze_code_with_ai`). -/
def headerOf : SKey → Str
  | .code_review => "## Code Review".data
  | .optimization => "## Optimization Suggestions".data
  | .security => "## Security Issues".data
  | .refactored_code => "## Refactored Code".data

/-- The `sections` dict of `analyze_code_with_ai`, in insertion order. -/
def sectionsTable : List (Str × SKey) :=
  [("## Code Review".data, .code_review),
   ("## Optimization Suggestions".data, .optimization),
   ("## Security Issues".data, .security),
   ("## Refactored Code".data, .refactored_code)]

/-- The inner `for header, key in sections.items()` loop with its `break`:
the first header (in table order) contained in the line, if any. -/
def findHeader (line : Str) : Option SKey :=
  (sectionsTable.find? (fun p => decide (p.1 <:+: line))).map (fun p => p.2)

/-- The extractor loop state: `current_section` plus the four accumulated
section texts. -/
structure ExtractState : Type where
  cur : Option SKey
  code_review : Str
  optimization : Str
  security : Str
  refactored_code : Str
deriving DecidableEq

/-- Read one accumulated section out of the loop state. -/
def getSec (st : ExtractState) : SKey → Str
  | .code_review => st.code_review
  | .optimization => st.optimization
  | .security => st.security
  | .refactored_code => st.refactored_code

/-- Append a chunk of text to one section of the loop state. -/
def appendSec (st : ExtractState) (k : SKey) (chunk : Str) : ExtractState :=
  match k with
  | .code_review => { st with code_review := st.code_review ++ chunk }
  | .optimization => { st with optimization := st.optimization ++ chunk }
  | .security => { st with security := st.security ++ chunk }
  | .refactored_code => { st with refactored_code := st.refactored_code ++ chunk }

/-- One iteration of the extractor loop (`for line in lines` in
`analyze_code_with_ai`): a line containing one of the four header strings
redirects `current_section` (first match in table order wins); then, if a
current section is set, the line plus a newline is appended to it. -/
def stepLine (st : ExtractState) (line : Str) : ExtractState :=
  match findHeader line with
  | some k => appendSec { st with cur := some k } k (line ++ ['\n'])
  | none =>
    match st.cur with
    | some k => appendSec st k (line ++ ['\n'])
    | none => st

/-- The initial extractor loop state: no current section, all sections
empty. -/
def initExtractState : ExtractState := ⟨none, [], [], [], []⟩

/-- The structured record produced by the extractor on a successful
LLM reply. -/
structure AnalysisResult : Type where
  code_review : Str
  optimization : Str
  security : Str
  refactored_code : Str
  raw_analysis : Str
deriving DecidableEq

/-- Read one section out of an `AnalysisResult`. -/
def resultSec (r : AnalysisResult) : SKey → Str
  | .code_review => r.code_review
  | .optimization => r.optimization
  | .security => r.security
  | .refactored_code => r.refactored_code

/-- The section-extraction pass of `analyze_code_with_ai` (lines 174-207):
split the reply into lines, run the accumulation loop, strip each section,
and keep the verbatim reply in `raw_analysis`. -/
def extract_result (text : Str) : AnalysisResult :=
  let st := (splitLines text).foldl stepLine initExtractState
  { code_review := strip st.code_review
    optimization := strip st.optimization
    security := strip st.security
    refactored_code := strip st.refactored_code
    raw_analysis := text }

/-- Outcome of `analyze_code_with_ai`: either a dict with only an
`error` key, or the full structured result (no `error` key). -/
inductive AnalyzeOutcome : Type where
  | err (msg : Str)
  | ok (r : AnalysisResult)
deriving DecidableEq

/-- Whether the `error` key is present in the result dict. -/
def hasErrorKey : AnalyzeOutcome → Bool
  | .err _ => true
  | .ok _ => false

/-- Python `result.get("code_review", "")` on the result dict. -/
def resultCodeReview : AnalyzeOutcome → Str
  | .err _ => []
  | .ok r => r.code_review

/-- Outcome of the external Groq chat-completion call: a reply text, or
an exception message caught by the `except` clause. -/
inductive LLMOutcome : Type where
  | reply (text : Str)
  | fault (msg : Str)
deriving DecidableEq

/-- The error message returned when `GROQ_API_KEY` is not configured. -/
def KEY_MISSING_MSG : Str :=
  "Groq API key not configured. Please set GROQ_API_KEY in .env file".data

/-- The text prepended to a caught exception message. -/
def AI_ANALYSIS_ERROR : Str := "AI Analysis Error: ".data

/-- `analyze_code_with_ai(code, language)`: with no API key configured,
return the fixed configuration-error dict; on an exception from the LLM
call, return the prefixed error dict; on a reply, run the extractor.
The key presence and the LLM outcome are modelled as explicit inputs;
`code` and `language` only flow into the prompt for the external call. -/
def analyze_code_with_ai (apiKeyPresent : Bool) (llm : LLMOutcome)
    (code language : Str) : AnalyzeOutcome :=
  if apiKeyPresent then
    match llm with
    | .reply t => .ok (extract_result t)
    | .fault m => .err (AI_ANALYSIS_ERROR ++ m)
  else .err KEY_MISSING_MSG

/-- One record of `users.json`: the stored password hash (JSON field
`password`) and the registration timestamp. -/
structure UserRecord : Type where
  password : Str
  created_at : Str
deriving DecidableEq

/-- A JSON-object store: an association list with Python-dict update
semantics (unique keys, insertion order preserved). -/
abbrev UserMap := List (Str × UserRecord)

/-- Python dict lookup `d[k]` / `k in d`. -/
def dictGet {V : Type} : List (Str × V) → Str → Option V
  | [], _ => none
  | (k0, v0) :: d, k => if k0 = k then some v0 else dictGet d k

/-- Python dict assignment `d[k] = v`: replace the value at an existing
key in place, or append a new key at the end. -/
def dictSet {V : Type} : List (Str × V) → Str → V → List (Str × V)
  | [], k, v => [(k, v)]
  | (k0, v0) :: d, k, v =>
    if k0 = k then (k, v) :: d else (k0, v0) :: dictSet d k v

/-- `register_user(username, password)`: fail if the username is already
present, otherwise store the hash and creation time and persist.  Returns
the `(bool, message)` pair together with the persisted store. -/
def register_user (hashF : Str → Str) (users : UserMap)
    (username password now : Str) : (Bool × Str) × UserMap :=
  if (dictGet users username).isSome then
    ((false, "Username already exists".data), users)
  else
    ((true, "Registration successful".data),
      dictSet users username ⟨hashF password, now⟩)

/-- `authenticate_user(username, password)`: `Username not found` if the
username is absent, success if the stored hash equals the hash of the
supplied password, otherwise `Incorrect password`.  Read-only. -/
def authenticate_user (hashF : Str → Str) (users : UserMap)
    (username password : Str) : Bool × Str :=
  match dictGet users username with
  | none => (false, "Username not found".data)
  | some u =>
    if u.password = hashF password then (true, "Login successful".data)
    else (false, "Incorrect password".data)

/-- One record of `analysis_history.json`. -/
structure HistoryEntry : Type where
  timestamp : Str
  language : Str
  code_snippet : Str
  has_errors : Bool
  analysis_summary : Str
deriving DecidableEq

/-- The history store: username → ordered list of entries. -/
abbrev HistMap := List (Str × List HistoryEntry)

/-- The truncation marker appended to long code snippets. -/
def TRUNC_MARKER : Str := "...".data

/-- The entry dict built inside `save_analysis_to_history` (lines
219-225): timestamp, language, the code truncated to 200 characters plus
a marker when longer, `has_errors = ("error" not in result)`, and the
first 150 characters of the `code_review` section. -/
def mkHistoryEntry (now code language : Str) (result : AnalyzeOutcome) :
    HistoryEntry :=
  { timestamp := now
    language := language
    code_snippet :=
      if 200 < code.length then code.take 200 ++ TRUNC_MARKER else code
    has_errors := !(hasErrorKey result)
    analysis_summary := (resultCodeReview result).take 150 }

/-- Python `l[-50:]` generalised: the last `n` elements of a list. -/
def lastN (n : Nat) (l : List α) : List α := l.drop (l.length - n)

/-- `save_analysis_to_history(username, code, language, result)`: default
the user's list to empty, append the new entry, keep only the last 50
entries, persist the whole mapping. -/
def save_analysis_to_history (history : HistMap) (username code language : Str)
    (result : AnalyzeOutcome) (now : Str) : HistMap :=
  let history1 :=
    match dictGet history username with
    | none => dictSet history username ([] : List HistoryEntry)
    | some _ => history
  let prev := (dictGet history1 username).getD []
  dictSet history1 username
    (lastN 50 (prev ++ [mkHistoryEntry now code language result]))

/-- The user's history list, defaulting to empty (what the store holds
for that user). -/
def histOf (h : HistMap) (u : Str) : List HistoryEntry :=
  (dictGet h u).getD []

/-- What the analysis branch of `render_dashboard` displays. -/
inductive DashOutcome : Type where
  | emptyInputError
  | aiError (msg : Str)
  | success (r : AnalysisResult)
deriving DecidableEq

/-- The analysis branch of `render_dashboard` (lines 514-527): reject
blank code before calling the core; on an error result show it and leave
the history alone; otherwise save to history.  Returns the displayed
outcome together with the resulting history store. -/
def render_dashboard_analyze (apiKeyPresent : Bool) (llm : LLMOutcome)
    (history : HistMap) (username code language now : Str) :
    DashOutcome × HistMap :=
  if code = [] ∨ strip code = [] then (.emptyInputError, history)
  else
    match analyze_code_with_ai apiKeyPresent llm code language with
    | .err m => (.aiError m, history)
    | .ok r =>
      (.success r,
        save_analysis_to_history history username code language (.ok r) now)

/-- The observable state of a persisted JSON file: absent, present but
unreadable/unparseable, or well-formed content. -/
inductive FileState (α : Type) : Type where
  | missing
  | unreadable
  | content (data : α)

/-- `load_json_file(filename)`: a missing file or any exception while
reading/parsing yields the empty dict; otherwise the parsed content.
Total by construction — no state makes it raise. -/
def load_json_file {V : Type} : FileState (List (Str × V)) → List (Str × V)
  | .missing => []
  | .unreadable => []
  | .content d => d

/-! ### Dictionary lemmas -/

theorem dictGet_dictSet_self {V : Type} (d : List (Str × V)) (k : Str) (v : V) :
    dictGet (dictSet d k v) k = some v := by
  induction d with
  | nil => simp [dictGet, dictSet]
  | cons p d ih =>
    obtain ⟨k0, v0⟩ := p
    by_cases h : k0 = k
    · simp [dictSet, h, dictGet]
    · simp [dictSet, h, dictGet, ih]

theorem dictGet_dictSet_ne {V : Type} (d : List (Str × V)) (k k2 : Str) (v : V)
    (h : k2 ≠ k) : dictGet (dictSet d k v) k2 = dictGet d k2 := by
  have h3 : ¬ k = k2 := fun h2 => h h2.symm
  induction d with
  | nil => simp [dictGet, dictSet, h3]
  | cons p d ih =>
    obtain ⟨k0, v0⟩ := p
    by_cases h0 : k0 = k
    · subst h0
      simp [dictSet, dictGet, h3]
    · simp [dictSet, h0, dictGet, ih]

/-! ### Claim C3: authenticate_user -/

/-- C3: `authenticate_user` succeeds exactly when the username is present
and the stored hash equals the hash of the supplied password; an absent
username yields the `Username not found` failure and a hash mismatch the
`Incorrect password` failure; and the outcome is a deterministic function
of the stored state and the inputs (repeated calls agree). -/
theorem authenticate_user_spec (hashF : Str → Str) (users : UserMap) (u p : Str) :
    ((authenticate_user hashF users u p).1 = true ↔
      ∃ r, dictGet users u = some r ∧ r.password = hashF p) ∧
    (dictGet users u = none →
      authenticate_user hashF users u p = (false, "Username not found".data)) ∧
    (∀ r, dictGet users u = some r → r.password ≠ hashF p →
      authenticate_user hashF users u p = (false, "Incorrect password".data)) ∧
    authenticate_user hashF users u p = authenticate_user hashF users u p := by
  refine ⟨?_, ?_, ?_, rfl⟩
  · unfold authenticate_user
    cases hg : dictGet users u with
    | none => simp
    | some r =>
      by_cases hp : r.password = hashF p
      · simp [hp]
      · simp [hp]
  · intro hg
    simp [authenticate_user, hg]
  · intro r hg hp
    simp [authenticate_user, hg, hp]

/-- A one-user demo credential store for the C3 witness. -/
def demoUsers : UserMap := [("alice".data, ⟨"secret".data, "2024".data⟩)]

/-- Witness for C3 at a concrete store: a matching hash logs in, a
mismatch fails with `Incorrect password`, an unknown user with
`Username not found`. -/
theorem authenticate_user_spec_witness :
    (authenticate_user (fun s => s) demoUsers "alice".data "secret".data).1 = true ∧
    authenticate_user (fun s => s) demoUsers "alice".data "wrong".data
      = (false, "Incorrect password".data) ∧
    authenticate_user (fun s => s) demoUsers "bob".data "x".data
      = (false, "Username not found".data) := by
  refine ⟨?_, ?_, ?_⟩
  · exact (authenticate_user_spec (fun s => s) demoUsers "alice".data "secret".data).1.mpr
      ⟨⟨"secret".data, "2024".data⟩, by decide, rfl⟩
  · exact (authenticate_user_spec (fun s => s) demoUsers "alice".data "wrong".data).2.2.1
      ⟨"secret".data, "2024".data⟩ (by decide) (by decide)
  · exact (authenticate_user_spec (fun s => s) demoUsers "bob".data "x".data).2.1 (by decide)

/-! ### Claim C4: duplicate registration -/

/-- C4: registering a username that is already present always fails with
the `Username already exists` message and returns the store unchanged;
in the two-call scenario the first call succeeds and the record it stored
(password hash and creation time) is untouched by the failed second
call. -/
theorem register_user_duplicate (hashF : Str → Str) (users : UserMap)
    (u p p2 now now2 : Str) (h : dictGet users u = none) :
    (register_user hashF users u p now).1.1 = true ∧
    (∀ users2 : UserMap, (dictGet users2 u).isSome = true →
      register_user hashF users2 u p2 now2
        = ((false, "Username already exists".data), users2)) ∧
    register_user hashF (register_user hashF users u p now).2 u p2 now2
      = ((false, "Username already exists".data),
         (register_user hashF users u p now).2) ∧
    dictGet (register_user hashF (register_user hashF users u p now).2 u p2 now2).2 u
      = some ⟨hashF p, now⟩ := by
  have h1 : register_user hashF users u p now
      = ((true, "Registration successful".data), dictSet users u ⟨hashF p, now⟩) := by
    simp [register_user, h]
  refine ⟨by rw [h1], ?_, ?_, ?_⟩
  · intro users2 hs
    simp [register_user, hs]
  · rw [h1]
    simp [register_user, dictGet_dictSet_self]
  · rw [h1]
    simp [register_user, dictGet_dictSet_self]

/-- Witness for C4: from the empty store, registering `bob` and then
registering `bob` again fails the second time and leaves the store of
the first call intact. -/
theorem register_user_duplicate_witness :
    dictGet ([] : UserMap) "bob".data = none ∧
    register_user (fun s => s)
        (register_user (fun s => s) [] "bob".data "pw".data "t1".data).2
        "bob".data "pw2".data "t2".data
      = ((false, "Username already exists".data),
         (register_user (fun s => s) [] "bob".data "pw".data "t1".data).2) := by
  exact ⟨by decide,
    (register_user_duplicate (fun s => s) [] "bob".data "pw".data "pw2".data
      "t1".data "t2".data (by decide)).2.2.1⟩

/-! ### Claim C9: fail-open loading -/

/-- C9: `load_json_file` is a total function of the file state — no file
state makes it raise — and both a missing and an unreadable/unparseable
file load as the empty collection; the store operations proceed from that
loaded state exactly as from the empty collection. -/
theorem load_json_file_fail_open (hashF : Str → Str) (u p code language now : Str)
    (res : AnalyzeOutcome) :
    (load_json_file .missing : UserMap) = [] ∧
    (load_json_file .unreadable : UserMap) = [] ∧
    (load_json_file .missing : HistMap) = [] ∧
    (load_json_file .unreadable : HistMap) = [] ∧
    (∀ d : UserMap, load_json_file (.content d) = d) ∧
    register_user hashF (load_json_file .missing) u p now
      = register_user hashF [] u p now ∧
    authenticate_user hashF (load_json_file .unreadable) u p
      = authenticate_user hashF [] u p ∧
    save_analysis_to_history (load_json_file .missing) u code language res now
      = save_analysis_to_history [] u code language res now :=
  ⟨rfl, rfl, rfl, rfl, fun _ => rfl, rfl, rfl, rfl⟩

/-! ### Claim C10: frame properties of the two stores -/

/-- C10: saving a history entry for one user leaves every other user's
stored history unchanged, and registering a username leaves every other
username's stored record (hash and creation time) unchanged. -/
theorem store_frame (hashF : Str → Str) (h : HistMap) (users : UserMap)
    (u u2 code language now p : Str) (res : AnalyzeOutcome) (hne : u2 ≠ u) :
    dictGet (save_analysis_to_history h u code language res now) u2 = dictGet h u2 ∧
    dictGet (register_user hashF users u p now).2 u2 = dictGet users u2 := by
  constructor
  · unfold save_analysis_to_history
    cases hg : dictGet h u with
    | none => simp [hg, dictGet_dictSet_ne _ _ _ _ hne]
    | some l => simp [hg, dictGet_dictSet_ne _ _ _ _ hne]
  · unfold register_user
    by_cases hs : (dictGet users u).isSome
    · simp [hs]
    · simp [hs, dictGet_dictSet_ne _ _ _ _ hne]

/-- Witness for C10: a save for `alice` and a registration of `alice`
leave `bob`'s slots in the respective stores unchanged. -/
theorem store_frame_witness :
    "bob".data ≠ "alice".data ∧
    dictGet (save_analysis_to_history [] "alice".data "c".data "Python".data
        (.err "e".data) "t".data) "bob".data = dictGet ([] : HistMap) "bob".data ∧
    dictGet (register_user (fun s => s) [] "alice".data "pw".data "t".data).2 "bob".data
      = dictGet ([] : UserMap) "bob".data := by
  have h := store_frame (fun s => s) [] [] "alice".data "bob".data "c".data
    "Python".data "t".data "pw".data (.err "e".data) (by decide)
  exact ⟨by decide, h.1, h.2⟩

/-! ### History-store lemmas -/

theorem lastN_length_le {α : Type} (n : Nat) (l : List α) : (lastN n l).length ≤ n := by
  simp only [lastN, List.length_drop]
  omega

theorem lastN_lastN_append {α : Type} (n : Nat) (l : List α) (a : α) :
    lastN n (lastN n l ++ [a]) = lastN n (l ++ [a]) := by
  rcases le_or_lt l.length n with h | h
  · have h0 : l.length - n = 0 := Nat.sub_eq_zero_of_le h
    simp [lastN, h0]
  · rcases Nat.eq_zero_or_pos n with hn | hn
    · subst hn
      simp [lastN, List.drop_length]
    · have hlen : (lastN n l).length = n := by
        simp only [lastN, List.length_drop]
        omega
      have h1 : lastN n (lastN n l ++ [a]) = (lastN n l ++ [a]).drop 1 := by
        have hgen : ∀ m : List α, m.length = n → lastN n (m ++ [a]) = (m ++ [a]).drop 1 := by
          intro m hm
          simp only [lastN, List.length_append, hm, List.length_cons, List.length_nil]
          congr 1
          omega
        exact hgen (lastN n l) hlen
      have h2 : (lastN n l ++ [a]).drop 1 = l.drop (l.length - n + 1) ++ [a] := by
        rw [List.drop_append_of_le_length (by omega : 1 ≤ (lastN n l).length)]
        simp only [lastN, List.drop_drop]
      have h3 : lastN n (l ++ [a]) = l.drop (l.length + 1 - n) ++ [a] := by
        simp only [lastN, List.length_append, List.length_cons, List.length_nil]
        rw [List.drop_append_of_le_length (by omega)]
      rw [h1, h2, h3]
      have h4 : l.length - n + 1 = l.length + 1 - n := by omega
      rw [h4]

/-- The effect of one `save_analysis_to_history` call on the saving
user's own list: append the new entry and keep the last 50. -/
theorem histOf_save (h : HistMap) (u code language now : Str) (res : AnalyzeOutcome) :
    histOf (save_analysis_to_history h u code language res now) u
      = lastN 50 (histOf h u ++ [mkHistoryEntry now code language res]) := by
  unfold save_analysis_to_history histOf
  cases hg : dictGet h u with
  | none => simp [hg, dictGet_dictSet_self]
  | some l => simp [hg, dictGet_dictSet_self]

/-- A sequence of analysis saves for one user, each input being a
`(code, language, result, timestamp)` tuple. -/
def saveAll (h : HistMap) (u : Str)
    (xs : List (Str × Str × AnalyzeOutcome × Str)) : HistMap :=
  xs.foldl (fun acc x => save_analysis_to_history acc u x.1 x.2.1 x.2.2.1 x.2.2.2) h

/-- The history entry a `(code, language, result, timestamp)` input
produces. -/
def entryOf (x : Str × Str × AnalyzeOutcome × Str) : HistoryEntry :=
  mkHistoryEntry x.2.2.2 x.1 x.2.1 x.2.2.1

theorem saveAll_histOf (u : Str) (xs : List (Str × Str × AnalyzeOutcome × Str)) :
    ∀ (h : HistMap) (l : List HistoryEntry), histOf h u = lastN 50 l →
      histOf (saveAll h u xs) u = lastN 50 (l ++ xs.map entryOf) := by
  induction xs with
  | nil =>
    intro h l hl
    simpa using hl
  | cons x xs ih =>
    intro h l hl
    have hstep : histOf (save_analysis_to_history h u x.1 x.2.1 x.2.2.1 x.2.2.2) u
        = lastN 50 (l ++ [entryOf x]) := by
      rw [histOf_save, hl, entryOf, lastN_lastN_append]
    have := ih (save_analysis_to_history h u x.1 x.2.1 x.2.2.1 x.2.2.2)
      (l ++ [entryOf x]) hstep
    simpa [saveAll, List.append_assoc] using this

/-! ### Claim C2: history truncation invariant -/

/-- C2: starting from the empty history store, after any sequence of
appends for a user the stored list is exactly the last 50 appended
entries, in their original insertion order, and in particular its length
never exceeds 50 (appending 55 entries keeps exactly the last 50). -/
theorem history_truncation (u : Str) (xs : List (Str × Str × AnalyzeOutcome × Str)) :
    histOf (saveAll [] u xs) u = lastN 50 (xs.map entryOf) ∧
    (histOf (saveAll [] u xs) u).length ≤ 50 := by
  have hbase : histOf ([] : HistMap) u = lastN 50 ([] : List HistoryEntry) := rfl
  have h := saveAll_histOf u xs [] [] hbase
  simp only [List.nil_append] at h
  exact ⟨h, h ▸ lastN_length_le 50 _⟩

/-! ### Claim C8: the appended history entry -/

/-- C8: the entry recorded for a successful analysis carries the code
verbatim when it has at most 200 characters and its 200-character
truncation followed by the `...` marker when longer; its `has_errors`
flag equals the absence of the `error` key (hence `true` on a success
result); its `analysis_summary` is the first 150 characters of the
result's `code_review`; and the user's stored list after the save is its
previous content extended by exactly this entry (truncated to 50). -/
theorem history_entry_fields (h : HistMap) (u code language now : Str)
    (r : AnalysisResult) :
    histOf (save_analysis_to_history h u code language (.ok r) now) u
      = lastN 50 (histOf h u ++ [mkHistoryEntry now code language (.ok r)]) ∧
    (mkHistoryEntry now code language (.ok r)).code_snippet
      = (if 200 < code.length then code.take 200 ++ TRUNC_MARKER else code) ∧
    ((mkHistoryEntry now code language (.ok r)).has_errors
        = !(hasErrorKey (.ok r)) ∧
      (mkHistoryEntry now code language (.ok r)).has_errors = true) ∧
    (mkHistoryEntry now code language (.ok r)).analysis_summary
      = r.code_review.take 150 :=
  ⟨histOf_save h u code language now (.ok r), rfl, ⟨rfl, rfl⟩, rfl⟩

/-! ### Claim C5: error paths return only the error field, no history -/

/-- C5 counterexample: the missing-configuration failure — which the
claim includes among the faults whose error value must be
`AI Analysis Error: ` followed by the fault message — returns the fixed
configuration message, which does not start with that text. -/
theorem analyze_missing_key_counterexample :
    analyze_code_with_ai false (.fault "boom".data) "x".data "Python".data
      = .err KEY_MISSING_MSG ∧
    ¬ (AI_ANALYSIS_ERROR <+: KEY_MISSING_MSG) := by
  constructor
  · simp [analyze_code_with_ai]
  · decide

/-- C5 amended: an exception from the LLM call yields a result holding
only the error field `AI Analysis Error: ` ++ message, while a missing
API key yields only the error field with the fixed configuration
message (extraction is not attempted in either case — an error outcome
carries no sections); and whenever the core returns an error result the
dashboard leaves the history store untouched, so an append happens only
on an error-free result. -/
theorem analyze_error_paths (llm : LLMOutcome) (history : HistMap)
    (u code language now m : Str) :
    analyze_code_with_ai true (.fault m) code language
      = .err (AI_ANALYSIS_ERROR ++ m) ∧
    analyze_code_with_ai false llm code language = .err KEY_MISSING_MSG ∧
    (∀ (key : Bool) (llm2 : LLMOutcome) (e : Str),
      analyze_code_with_ai key llm2 code language = .err e →
      (render_dashboard_analyze key llm2 history u code language now).2 = history) := by
  refine ⟨by simp [analyze_code_with_ai], by simp [analyze_code_with_ai], ?_⟩
  intro key llm2 e he
  unfold render_dashboard_analyze
  by_cases hb : code = [] ∨ strip code = []
  · simp [hb]
  · simp [hb, he]

/-- Witness for C5 amended: a concrete transport fault is prefixed, and
a concrete error result (missing key) leaves a concrete history store
unchanged. -/
theorem analyze_error_paths_witness :
    analyze_code_with_ai true (.fault "down".data) "c".data "Python".data
      = .err (AI_ANALYSIS_ERROR ++ "down".data) ∧
    (render_dashboard_analyze false (.reply "hi".data) [] "alice".data "c".data
      "Python".data "t".data).2 = [] := by
  have h := analyze_error_paths (.reply "hi".data) [] "alice".data "c".data
    "Python".data "t".data "down".data
  exact ⟨h.1, h.2.2 false (.reply "hi".data) KEY_MISSING_MSG h.2.1⟩

/-! ### Claim C6: where the blank-input check lives -/

/-- C6 counterexample: `analyze_code_with_ai` itself performs no
blank-input check — invoked directly with empty code and a configured
key it processes the reply and returns an error-free result instead of
rejecting the input. -/
theorem analyze_blank_code_counterexample :
    analyze_code_with_ai true (.reply "ok".data) [] "Python".data
      = .ok (extract_result "ok".data) ∧
    hasErrorKey (analyze_code_with_ai true (.reply "ok".data) [] "Python".data)
      = false := by
  constructor
  · simp [analyze_code_with_ai]
  · simp [analyze_code_with_ai, hasErrorKey]

/-- C6 amended: the blank-input rejection is performed only by the
caller: `render_dashboard` rejects empty or whitespace-only code before
invoking the core and leaves the history untouched, while the core
itself applies no blank-code check and processes blank code like any
other input. -/
theorem blank_code_rejected_by_caller (key : Bool) (llm : LLMOutcome)
    (history : HistMap) (u code language now : Str) (h : strip code = []) :
    render_dashboard_analyze key llm history u code language now
      = (.emptyInputError, history) ∧
    (∀ t : Str, analyze_code_with_ai true (.reply t) code language
      = .ok (extract_result t)) := by
  constructor
  · simp [render_dashboard_analyze, h]
  · intro t
    simp [analyze_code_with_ai]

/-- Witness for C6 amended: whitespace-only code is rejected by the
dashboard without touching the history store. -/
theorem blank_code_rejected_by_caller_witness :
    strip "  ".data = [] ∧
    render_dashboard_analyze true (.reply "hi".data) [] "alice".data "  ".data
      "Python".data "t".data = (.emptyInputError, []) := by
  have h := blank_code_rejected_by_caller true (.reply "hi".data) []
    "alice".data "  ".data "Python".data "t".data (by decide)
  exact ⟨by decide, h.1⟩

/-! ### Extractor: line and loop-state lemmas -/

/-- Pieces produced by `splitLines` contain no newline. -/
theorem not_nl_mem_splitLines (s : Str) : ∀ l ∈ splitLines s, '\n' ∉ l := by
  induction s with
  | nil =>
    intro l hl
    simp only [splitLines, List.mem_singleton] at hl
    subst hl
    simp
  | cons c cs ih =>
    intro l hl
    by_cases h : c = '\n'
    · simp only [splitLines, if_pos h] at hl
      rcases List.mem_cons.mp hl with h0 | h0
      · subst h0
        simp
      · exact ih l h0
    · simp only [splitLines, if_neg h] at hl
      cases hs : splitLines cs with
      | nil =>
        rw [hs] at hl
        simp only [List.mem_singleton] at hl
        subst hl
        simp only [List.mem_singleton]
        exact fun h2 => h h2.symm
      | cons l0 ls =>
        rw [hs] at hl
        rcases List.mem_cons.mp hl with h0 | h0
        · subst h0
          intro hmem
          rcases List.mem_cons.mp hmem with h2 | h2
          · exact h h2.symm
          · exact ih l0 (by rw [hs]; exact List.mem_cons_self l0 ls) h2
        · exact ih l (by rw [hs]; exact List.mem_cons_of_mem l0 h0)

/-- Every row of the header table pairs a key with its own header
string. -/
theorem sectionsTable_headerOf : ∀ p ∈ sectionsTable, p.1 = headerOf p.2 := by
  decide

/-- When the header search succeeds, the found header string occurs in
the line. -/
theorem findHeader_some_infix {line : Str} {k : SKey}
    (h : findHeader line = some k) : headerOf k <:+: line := by
  unfold findHeader at h
  cases hf : sectionsTable.find? (fun p => decide (p.1 <:+: line)) with
  | none =>
    rw [hf] at h
    simp at h
  | some pr =>
    rw [hf] at h
    simp only [Option.map_some'] at h
    have h1 := List.find?_some hf
    have h2 := List.mem_of_find?_eq_some hf
    have h3 := sectionsTable_headerOf pr h2
    have h4 : pr.2 = k := Option.some.inj h
    rw [← h4, ← h3]
    exact of_decide_eq_true h1

theorem getSec_appendSec_self (st : ExtractState) (k : SKey) (c : Str) :
    getSec (appendSec st k c) k = getSec st k ++ c := by
  cases k <;> rfl

theorem getSec_appendSec_ne (st : ExtractState) (k k2 : SKey) (c : Str)
    (h : k2 ≠ k) : getSec (appendSec st k c) k2 = getSec st k2 := by
  cases k <;> cases k2 <;> first | rfl | exact absurd rfl h

theorem cur_appendSec (st : ExtractState) (k : SKey) (c : Str) :
    (appendSec st k c).cur = st.cur := by
  cases k <;> rfl

theorem getSec_setCur (st : ExtractState) (o : Option SKey) (k : SKey) :
    getSec { st with cur := o } k = getSec st k := by
  cases k <;> rfl

theorem stepLine_eq_some {st : ExtractState} {line : Str} {k : SKey}
    (hf : findHeader line = some k) :
    stepLine st line = appendSec { st with cur := some k } k (line ++ ['\n']) := by
  simp [stepLine, hf]

theorem stepLine_eq_none_some {st : ExtractState} {line : Str} {k : SKey}
    (hf : findHeader line = none) (hc : st.cur = some k) :
    stepLine st line = appendSec st k (line ++ ['\n']) := by
  simp [stepLine, hf, hc]

theorem stepLine_eq_none_none {st : ExtractState} {line : Str}
    (hf : findHeader line = none) (hc : st.cur = none) :
    stepLine st line = st := by
  simp [stepLine, hf, hc]

/-- Shape of a well-formed accumulated section: empty, or a first line
containing the section's header followed by a newline and the rest. -/
def accOK (k : SKey) (acc : Str) : Prop :=
  acc = [] ∨ ∃ L rest, acc = L ++ '\n' :: rest ∧ headerOf k <:+: L ∧ '\n' ∉ L

/-- Loop invariant: a set current section is non-empty, and every
section is empty or starts with a line containing its header. -/
def stInv (st : ExtractState) : Prop :=
  (∀ k, st.cur = some k → getSec st k ≠ []) ∧ (∀ k, accOK k (getSec st k))

theorem accOK_extend (k : SKey) (acc chunk : Str)
    (hex : ∃ L rest, acc = L ++ '\n' :: rest ∧ headerOf k <:+: L ∧ '\n' ∉ L) :
    accOK k (acc ++ chunk) := by
  obtain ⟨L, rest, rfl, hi, hn⟩ := hex
  right
  exact ⟨L, rest ++ chunk, by simp, hi, hn⟩

theorem initExtractState_inv : stInv initExtractState := by
  constructor
  · intro k hk
    simp [initExtractState] at hk
  · intro k
    left
    cases k <;> rfl

theorem stepLine_inv (st : ExtractState) (line : Str) (hline : '\n' ∉ line)
    (h : stInv st) : stInv (stepLine st line) := by
  obtain ⟨hcur, hacc⟩ := h
  cases hf : findHeader line with
  | some k =>
    rw [stepLine_eq_some hf]
    have hhead : headerOf k <:+: line := findHeader_some_infix hf
    constructor
    · intro k2 hk2
      rw [cur_appendSec] at hk2
      have hk : k2 = k := (Option.some.inj hk2).symm
      subst hk
      rw [getSec_appendSec_self, getSec_setCur]
      simp
    · intro k2
      by_cases hk : k2 = k
      · subst hk
        rw [getSec_appendSec_self, getSec_setCur]
        rcases hacc k2 with h0 | hex
        · rw [h0]
          right
          exact ⟨line, [], by simp, hhead, hline⟩
        · exact accOK_extend k2 _ _ hex
      · rw [getSec_appendSec_ne _ _ _ _ hk, getSec_setCur]
        exact hacc k2
  | none =>
    cases hc : st.cur with
    | none =>
      rw [stepLine_eq_none_none hf hc]
      exact ⟨hcur, hacc⟩
    | some k =>
      rw [stepLine_eq_none_some hf hc]
      constructor
      · intro k2 hk2
        rw [cur_appendSec, hc] at hk2
        have hk : k2 = k := (Option.some.inj hk2).symm
        subst hk
        rw [getSec_appendSec_self]
        simp
      · intro k2
        by_cases hk : k2 = k
        · subst hk
          rw [getSec_appendSec_self]
          rcases hacc k2 with h0 | hex
          · exact absurd h0 (hcur k2 hc)
          · exact accOK_extend k2 _ _ hex
        · rw [getSec_appendSec_ne _ _ _ _ hk]
          exact hacc k2

theorem foldl_stepLine_inv (ls : List Str) :
    ∀ st : ExtractState, (∀ l ∈ ls, '\n' ∉ l) → stInv st →
      stInv (ls.foldl stepLine st) := by
  induction ls with
  | nil =>
    intro st _ h
    exact h
  | cons l ls ih =>
    intro st hls h
    rw [List.foldl_cons]
    exact ih (stepLine st l) (fun x hx => hls x (List.mem_cons_of_mem l hx))
      (stepLine_inv st l (hls l (List.mem_cons_self l ls)) h)

/-! ### Extractor: whitespace-stripping lemmas -/

theorem infixRev {α : Type} {l1 l2 : List α} :
    l1.reverse <:+: l2.reverse ↔ l1 <:+: l2 := List.reverse_infix

/-- An occurrence whose first character the predicate rejects survives
`dropWhile`. -/
theorem infix_dropWhile_of_head (p : Char → Bool) (c : Char) (t L : Str)
    (hc : p c = false) (h : c :: t <:+: L) : c :: t <:+: L.dropWhile p := by
  obtain ⟨a, b, hab⟩ := h
  subst hab
  induction a with
  | nil =>
    rw [List.nil_append, List.cons_append,
      List.dropWhile_cons_of_neg (by simp [hc])]
    exact ⟨[], b, by simp⟩
  | cons x a ih =>
    by_cases hx : p x = true
    · rw [List.cons_append, List.cons_append, List.dropWhile_cons_of_pos hx]
      exact ih
    · rw [List.cons_append, List.cons_append,
        List.dropWhile_cons_of_neg (by simp_all)]
      exact ⟨x :: a, b, by simp⟩

theorem dropWhile_ne_nil_of_mem (p : Char → Bool) (L : Str) (x : Char)
    (hx : x ∈ L) (hpx : p x = false) : L.dropWhile p ≠ [] := by
  intro h
  rw [List.dropWhile_eq_nil_iff] at h
  exact absurd (h x hx) (by simp [hpx])

theorem trimLeft_append_nl (L rest : Str) (hx : ∃ x ∈ L, isSpace x = false) :
    trimLeft (L ++ '\n' :: rest) = trimLeft L ++ '\n' :: rest := by
  unfold trimLeft
  rw [List.dropWhile_append]
  obtain ⟨x, hxL, hxs⟩ := hx
  rw [if_neg]
  intro h
  rw [List.isEmpty_iff] at h
  exact dropWhile_ne_nil_of_mem isSpace L x hxL hxs h

theorem trimLeft_not_nl (L : Str) (h : '\n' ∉ L) : '\n' ∉ trimLeft L :=
  fun hmem => h (List.dropWhile_subset isSpace hmem)

theorem trimRight_subset (l : Str) : trimRight l ⊆ l := by
  intro x hx
  unfold trimRight at hx
  rw [List.mem_reverse] at hx
  have h2 := List.dropWhile_subset isSpace hx
  rw [List.mem_reverse] at h2
  exact h2

theorem takeWhile_append_cons (p : Char → Bool) (l1 : Str) (a : Char) (l2 : Str)
    (h1 : ∀ x ∈ l1, p x = true) (h2 : p a = false) :
    (l1 ++ a :: l2).takeWhile p = l1 := by
  induction l1 with
  | nil =>
    rw [List.nil_append, List.takeWhile_cons_of_neg (by simp [h2])]
  | cons x l1 ih =>
    rw [List.cons_append,
      List.takeWhile_cons_of_pos (h1 x (List.mem_cons_self x l1)),
      ih (fun y hy => h1 y (List.mem_cons_of_mem x hy))]

theorem firstLine_of_not_mem (l : Str) (h : '\n' ∉ l) : firstLine l = l := by
  unfold firstLine
  rw [List.takeWhile_eq_self_iff]
  intro x hx
  have hxn : x ≠ '\n' := fun he => h (he ▸ hx)
  simp [hxn]

/-- Each header string decomposes as a first and last non-whitespace
character around a middle. -/
theorem headerOf_shape (k : SKey) :
    ∃ c m d, headerOf k = c :: (m ++ [d]) ∧ isSpace c = false ∧ isSpace d = false := by
  cases k
  · exact ⟨'#', "# Code Revie".data, 'w', by decide, by decide, by decide⟩
  · exact ⟨'#', "# Optimization Suggestion".data, 's', by decide, by decide, by decide⟩
  · exact ⟨'#', "# Security Issue".data, 's', by decide, by decide, by decide⟩
  · exact ⟨'#', "# Refactored Cod".data, 'e', by decide, by decide, by decide⟩

theorem infix_trimRight_of_shape (c d : Char) (m L : Str)
    (hd : isSpace d = false) (h : c :: (m ++ [d]) <:+: L) :
    c :: (m ++ [d]) <:+: trimRight L := by
  have hrev : (c :: (m ++ [d])).reverse = d :: (m.reverse ++ [c]) := by simp
  have h1 : d :: (m.reverse ++ [c]) <:+: L.reverse := by
    rw [← hrev]
    exact infixRev.mpr h
  have h2 := infix_dropWhile_of_head isSpace d (m.reverse ++ [c]) L.reverse hd h1
  have hrev2 : (d :: (m.reverse ++ [c])).reverse = c :: (m ++ [d]) := by simp
  unfold trimRight
  rw [← hrev2]
  exact infixRev.mpr h2

/-- Core of C1: stripping an accumulated section whose first line
contains the header leaves the header inside the first line of the
result. -/
theorem header_infix_firstLine_strip (k : SKey) (L rest : Str)
    (hi : headerOf k <:+: L) (hnl : '\n' ∉ L) :
    headerOf k <:+: firstLine (strip (L ++ '\n' :: rest)) := by
  obtain ⟨c, m, d, hk, hc, hd⟩ := headerOf_shape k
  have hcL : c ∈ L := hi.subset (by rw [hk]; exact List.mem_cons_self _ _)
  have hA : trimLeft (L ++ '\n' :: rest) = trimLeft L ++ '\n' :: rest :=
    trimLeft_append_nl L rest ⟨c, hcL, hc⟩
  have hB : headerOf k <:+: trimLeft L := by
    rw [hk] at hi ⊢
    exact infix_dropWhile_of_head isSpace c (m ++ [d]) L hc hi
  have hC : '\n' ∉ trimLeft L := trimLeft_not_nl L hnl
  unfold strip
  rw [hA]
  by_cases hr : ∀ x ∈ rest, isSpace x = true
  · have hrev : (trimLeft L ++ '\n' :: rest).reverse
        = (rest.reverse ++ ['\n']) ++ (trimLeft L).reverse := by simp
    have hall : ∀ x ∈ rest.reverse ++ ['\n'], isSpace x = true := by
      intro x hx
      rcases List.mem_append.mp hx with hx | hx
      · exact hr x (List.mem_reverse.mp hx)
      · rw [List.mem_singleton] at hx
        subst hx
        decide
    have ht : trimRight (trimLeft L ++ '\n' :: rest) = trimRight (trimLeft L) := by
      unfold trimRight
      rw [hrev, List.dropWhile_append_of_pos hall]
    rw [ht]
    have hnl2 : '\n' ∉ trimRight (trimLeft L) :=
      fun hmem => hC (trimRight_subset _ hmem)
    rw [firstLine_of_not_mem _ hnl2]
    rw [hk] at hB ⊢
    exact infix_trimRight_of_shape c d m (trimLeft L) hd hB
  · push_neg at hr
    obtain ⟨x, hxr, hxs⟩ := hr
    have hxs2 : isSpace x = false := by
      cases hsx : isSpace x
      · rfl
      · exact absurd hsx hxs
    have hrev : (trimLeft L ++ '\n' :: rest).reverse
        = rest.reverse ++ '\n' :: (trimLeft L).reverse := by simp
    have hne : rest.reverse.dropWhile isSpace ≠ [] :=
      dropWhile_ne_nil_of_mem isSpace rest.reverse x (List.mem_reverse.mpr hxr) hxs2
    have ht : trimRight (trimLeft L ++ '\n' :: rest)
        = trimLeft L ++ '\n' :: (rest.reverse.dropWhile isSpace).reverse := by
      unfold trimRight
      rw [hrev, List.dropWhile_append]
      rw [if_neg (by rw [List.isEmpty_iff]; exact hne)]
      simp
    rw [ht]
    have hfl : firstLine
        (trimLeft L ++ '\n' :: (rest.reverse.dropWhile isSpace).reverse)
        = trimLeft L := by
      unfold firstLine
      apply takeWhile_append_cons
      · intro y hy
        have hyn : y ≠ '\n' := fun he => hC (he ▸ hy)
        simp [hyn]
      · simp
    rw [hfl]
    exact hB

/-! ### Claim C1: header lines open their sections; raw reply verbatim -/

/-- C1: for every raw reply, every non-empty extracted section opens with
the line that set it — after the final strip, the section's first line
still contains that section's header string — and `raw_analysis` is the
input verbatim. -/
theorem extractor_header_line (s : Str) (k : SKey)
    (h : resultSec (extract_result s) k ≠ []) :
    headerOf k <:+: firstLine (resultSec (extract_result s) k) ∧
    (extract_result s).raw_analysis = s := by
  refine ⟨?_, rfl⟩
  have hinv := foldl_stepLine_inv (splitLines s) initExtractState
    (not_nl_mem_splitLines s) initExtractState_inv
  have hsec : resultSec (extract_result s) k
      = strip (getSec ((splitLines s).foldl stepLine initExtractState) k) := by
    cases k <;> rfl
  rw [hsec] at h ⊢
  rcases hinv.2 k with h0 | ⟨L, rest, heq, hi, hnl⟩
  · rw [h0] at h
    exact absurd rfl h
  · rw [heq]
    exact header_infix_firstLine_strip k L rest hi hnl

/-- Witness for C1 at a concrete reply: the code-review section is
non-empty, its first line contains the header, and the raw text is kept
verbatim. -/
theorem extractor_header_line_witness :
    resultSec (extract_result "## Code Review\nok".data) .code_review ≠ [] ∧
    headerOf .code_review
      <:+: firstLine (resultSec (extract_result "## Code Review\nok".data) .code_review) ∧
    (extract_result "## Code Review\nok".data).raw_analysis
      = "## Code Review\nok".data := by
  have h : resultSec (extract_result "## Code Review\nok".data) .code_review ≠ [] := by
    decide
  exact ⟨h, (extractor_header_line "## Code Review\nok".data .code_review h).1,
    (extractor_header_line "## Code Review\nok".data .code_review h).2⟩

/-! ### Claim C7: replies with no header at all -/

theorem foldl_stepLine_no_header (ls : List Str) :
    ∀ st : ExtractState, (∀ l ∈ ls, findHeader l = none) → st.cur = none →
      ls.foldl stepLine st = st := by
  induction ls with
  | nil =>
    intro st _ _
    rfl
  | cons l ls ih =>
    intro st hls hcur
    rw [List.foldl_cons, stepLine_eq_none_none (hls l (List.mem_cons_self l ls)) hcur]
    exact ih st (fun x hx => hls x (List.mem_cons_of_mem l hx)) hcur

/-- C7: when no line of the reply contains any of the four header
strings, all four extracted sections are empty and `raw_analysis` is the
full input. -/
theorem extractor_no_headers (s : Str)
    (h : (splitLines s).all (fun l => (findHeader l).isNone) = true) :
    (∀ k, resultSec (extract_result s) k = []) ∧
    (extract_result s).raw_analysis = s := by
  have h2 : ∀ l ∈ splitLines s, findHeader l = none := by
    intro l hl
    exact Option.isNone_iff_eq_none.mp (List.all_eq_true.mp h l hl)
  have hfold := foldl_stepLine_no_header (splitLines s) initExtractState h2 rfl
  refine ⟨?_, rfl⟩
  intro k
  have hsec : resultSec (extract_result s) k
      = strip (getSec ((splitLines s).foldl stepLine initExtractState) k) := by
    cases k <;> rfl
  rw [hsec, hfold]
  cases k <;> rfl

/-- Witness for C7 at a concrete header-free reply. -/
theorem extractor_no_headers_witness :
    (splitLines "hello\nworld".data).all (fun l => (findHeader l).isNone) = true ∧
    resultSec (extract_result "hello\nworld".data) .code_review = [] ∧
    resultSec (extract_result "hello\nworld".data) .refactored_code = [] ∧
    (extract_result "hello\nworld".data).raw_analysis = "hello\nworld".data := by
  have h : (splitLines "hello\nworld".data).all (fun l => (findHeader l).isNone) = true := by
    decide
  exact ⟨h, (extractor_no_headers "hello\nworld".data h).1 .code_review,
    (extractor_no_headers "hello\nworld".data h).1 .refactored_code,
    (extractor_no_headers "hello\nworld".data h).2⟩

end CodeRefine
